import Mathlib

/-!
Verification of the audiophash repository against its specification.

The Go sources are shallowly embedded below.  Machine `float64` values are
modelled as elements of a linear ordered field (instantiated at `ℚ` where an
executable instance is wanted and at `ℝ` where the source uses transcendental
functions), Go `int`/`uint32` values as `ℤ`/`ℕ`, byte buffers as `List ℕ`,
fallible functions as `Except String` results, and runtime panics (index out
of range) as `Option.none`.
-/

set_option maxHeartbeats 1000000


/-! ## Generic helpers -/

/-- Traversal of a list under `Option`, used to model Go loops whose body
indexes a slice and can therefore panic: the result is `none` exactly when
some element access is out of range. -/
def mapO {α β : Type} (f : α → Option β) : List α → Option (List β)
  | [] => some []
  | a :: as =>
    match f a, mapO f as with
    | some b, some bs => some (b :: bs)
    | _, _ => none

/-! ## Package config (src/pkg/config/config.go) -/

/-- Config holds framing and sample parameters (Go struct `config.Config`). -/
structure Config where
  sampleRate : ℤ
  frameSize : ℤ
  hop : ℤ
  numBins : ℤ
  deriving DecidableEq, Repr

/-- Embedding of `config.isPowerOfTwo`: `x > 0 && (x&(x-1)) == 0`. -/
def isPowerOfTwo (x : ℤ) : Bool :=
  decide (0 < x) && decide (Int.land x (x - 1) = 0)

/-- Embedding of `config.DefaultConfig`. -/
def DefaultConfig (sr : ℤ) : Config :=
  { sampleRate := if sr ≤ 0 then 44100 else sr
    frameSize := 2048
    hop := 2048 / 2
    numBins := 64 }

/-- Embedding of `(*Config).ValidateAndFill`: normalizes zero values and
checks constraints, returning the updated config or an error. -/
def ValidateAndFill (c : Config) : Except String Config :=
  if c.sampleRate ≤ 0 then .error "sample rate must be > 0"
  else
    let fs := if c.frameSize ≤ 0 then 2048 else c.frameSize
    let hp := if c.hop ≤ 0 then fs / 2 else c.hop
    if hp ≤ 0 ∨ fs < hp then .error "invalid hop: must be 1..FrameSize"
    else if ¬ isPowerOfTwo fs then .error "frameSize must be a power of two"
    else .ok { c with frameSize := fs, hop := hp }

/-! ## Package audio: Normalize and Resample (src, package audio) -/

/-- Step function of the running maximum-absolute-amplitude loop inside
`audio.Normalize` (`if a := math.Abs(s); a > maxAmp { maxAmp = a }`). -/
def ampStep {α : Type} [LinearOrderedField α] (m s : α) : α :=
  if m < |s| then |s| else m

/-- Embedding of `audio.Normalize`: rescale samples by the reciprocal of the
maximum absolute amplitude; an empty or entirely zero sequence is returned
unchanged. -/
def Normalize {α : Type} [LinearOrderedField α] (samples : List α) : List α :=
  if samples.length = 0 then samples
  else
    let maxAmp := samples.foldl ampStep 0
    if maxAmp = 0 then samples
    else samples.map (fun s => s * (1 / maxAmp))

/-- Embedding of `audio.Resample`: linear resampling from `fromHz` to
`toHz`; equal rates return the input unchanged; a non-positive rate or an
empty input yields an error. -/
def Resample {α : Type} [LinearOrderedField α] [FloorRing α]
    (samples : List α) (fromHz toHz : ℤ) : Except String (List α) :=
  if fromHz ≤ 0 ∨ toHz ≤ 0 then .error "invalid sample rate"
  else if samples.length = 0 then .error "no samples to resample"
  else if fromHz = toHz then .ok samples
  else
    let rat : α := (toHz : α) / (fromHz : α)
    let newLen := (⌊(samples.length : α) * rat⌋).toNat
    .ok ((List.range newLen).map (fun i =>
      let pos : α := (i : α) / rat
      let idx := (⌊pos⌋).toNat
      if idx + 1 < samples.length then
        samples.getD idx 0 * (1 - (pos - (⌊pos⌋ : α))) + samples.getD (idx + 1) 0 * (pos - (⌊pos⌋ : α))
      else samples.getD (samples.length - 1) 0))

/-! ## Package audio: Frame (src/unnamed/part_000) -/

/-- Hann window precomputed by `audio.Frame`:
`window[i] = 0.5 * (1 - cos(2*pi*i/(frameSize-1)))`. -/
noncomputable def hannWindow (N k : ℕ) : ℝ :=
  0.5 * (1 - Real.cos (2 * Real.pi * (k : ℝ) / ((N : ℝ) - 1)))

/-- Embedding of `audio.Frame`: splits samples into overlapping frames of
length `frameSize` advancing by `hop`, each multiplied elementwise by the
Hann window.  Invalid parameters return `nil` as in the source. -/
noncomputable def Frame (samples : List ℝ) (frameSize hop : ℤ) : List (List ℝ) :=
  if frameSize ≤ 0 ∨ hop ≤ 0 ∨ frameSize < hop then []
  else
    let N := frameSize.toNat
    let H := hop.toNat
    let count := if N ≤ samples.length then (samples.length - N) / H + 1 else 0
    (List.range count).map (fun j =>
      (List.range N).map (fun k => samples.getD (j * H + k) 0 * hannWindow N k))

/-! ## Package features (src/pkg/features/feature.go) -/

namespace Features

/-- Embedding of `features.median`: ascending sort, then middle element (odd
count) or average of the two central elements (even count); empty input
returns 0.  `sort.Float64s` is modelled by insertion sort, which produces
the unique ascending reordering. -/
def median {α : Type} [LinearOrderedField α] (arr : List α) : α :=
  if arr.length = 0 then 0
  else
    let sorted := List.insertionSort (· ≤ ·) arr
    if arr.length % 2 = 0 then (sorted.getD (arr.length / 2 - 1) 0 + sorted.getD (arr.length / 2) 0) / 2
    else sorted.getD (arr.length / 2) 0

end Features

/-- Embedding of `features.ExtractGlobalFeature`: clamps `numBins` to the
length of the first frame's spectrum and takes the mean of each bin across
frames.  The element access `f[bin]` is modelled by `Option`: the result is
`none` when some access would panic. -/
def ExtractGlobalFeature {α : Type} [LinearOrderedField α]
    (frameMags : List (List α)) (numBins : ℤ) : Option (List α) :=
  if frameMags.length = 0 ∨ numBins ≤ 0 then some []
  else
    let nb : ℤ := if (frameMags.headI.length : ℤ) < numBins then (frameMags.headI.length : ℤ) else numBins
    mapO (fun bin =>
        (mapO (fun f => f[bin]?) frameMags).map
          (fun values => values.sum / (frameMags.length : α)))
      (List.range nb.toNat)

/-- Embedding of `features.AggregateGlobalFeature` (textually the same mean
aggregation as `ExtractGlobalFeature` in the source). -/
def AggregateGlobalFeature {α : Type} [LinearOrderedField α]
    (frameMags : List (List α)) (numBins : ℤ) : Option (List α) :=
  if frameMags.length = 0 ∨ numBins ≤ 0 then some []
  else
    let nb : ℤ := if (frameMags.headI.length : ℤ) < numBins then (frameMags.headI.length : ℤ) else numBins
    mapO (fun bin =>
        (mapO (fun f => f[bin]?) frameMags).map
          (fun values => values.sum / (frameMags.length : α)))
      (List.range nb.toNat)

/-- Embedding of `features.AggregateGlobalFeatureMedian`: clamps `numBins`
to the length of the first frame's spectrum and takes the median of each
bin across frames. -/
def AggregateGlobalFeatureMedian {α : Type} [LinearOrderedField α]
    (frameMags : List (List α)) (numBins : ℤ) : Option (List α) :=
  if frameMags.length = 0 ∨ numBins ≤ 0 then some []
  else
    let nb : ℤ := if (frameMags.headI.length : ℤ) < numBins then (frameMags.headI.length : ℤ) else numBins
    mapO (fun bin => (mapO (fun f => f[bin]?) frameMags).map Features.median)
      (List.range nb.toNat)

/-- Embedding of `features.LogScaleFeature`: replaces each feature value `v`
with `ln(1+v)`. -/
noncomputable def LogScaleFeature (feature : List ℝ) : List ℝ :=
  feature.map (fun v => Real.log (1 + v))

/-! ## Package hash (src/pkg/hash/hash.go) and the tests comparator -/

namespace Hash

/-- Embedding of `hash.median` (the copy in hash.go, which has no empty
guard; it is only ever applied to the 64-entry padded feature vector). -/
def median {α : Type} [LinearOrderedField α] (arr : List α) : α :=
  let sorted := List.insertionSort (· ≤ ·) arr
  if arr.length % 2 = 0 then
    (sorted.getD (arr.length / 2 - 1) 0 + sorted.getD (arr.length / 2) 0) / 2
  else sorted.getD (arr.length / 2) 0

end Hash

/-- Lowercase hexadecimal digit for a nibble, as produced by `%016x`. -/
def hexDigit (n : ℕ) : Char :=
  if n < 10 then Char.ofNat (48 + n) else Char.ofNat (87 + n)

/-- Rendering of a 64-bit value by `fmt.Sprintf("%016x", hash)`: sixteen
lowercase hex digits, most significant nibble first, zero padded. -/
def toHex16 (v : ℕ) : String :=
  String.mk ((List.range 16).map (fun j => hexDigit (v / 16 ^ (15 - j) % 16)))

/-- The 64-entry buffer built by `AudioPHashFromFeature`:
`make([]float64, 64)` zero-initialised, then `copy(feature, globalFeature)`. -/
def paddedFeature {α : Type} [LinearOrderedField α] (f : List α) : List α :=
  f.take 64 ++ List.replicate (64 - f.length) 0

/-- The 64-bit accumulator loop of `AudioPHashFromFeature`:
`hash |= 1 << (63-i)` for every position whose padded value exceeds the
median. -/
def audioPHashValue {α : Type} [LinearOrderedField α] (f : List α) : ℕ :=
  let feature := paddedFeature f
  let medianVal := Hash.median feature
  feature.enum.foldl (fun h p => if medianVal < p.2 then h ||| 2 ^ (63 - p.1) else h) 0

/-- Embedding of `hash.AudioPHashFromFeature`: empty input yields the empty
string, otherwise the 16-character hex rendering of the 64-bit value. -/
def AudioPHashFromFeature {α : Type} [LinearOrderedField α] (f : List α) : String :=
  if f.length = 0 then "" else toHex16 (audioPHashValue f)

/-- Modelled from the spec (section 4.7): the input feature vector
conceptually right-padded with zeros to exactly 64 entries, or truncated to
the first 64 entries. -/
def specPaddedVector {α : Type} [LinearOrderedField α] (f : List α) : List α :=
  (List.range 64).map (fun i => f.getD i 0)

/-- Modelled from the spec (sections 4.6 and 4.7): the even-count median of
a 64-entry vector, the average of the two central order statistics. -/
def specMedian64 {α : Type} [LinearOrderedField α] (l : List α) : α :=
  ((List.insertionSort (· ≤ ·) l).getD 31 0 + (List.insertionSort (· ≤ ·) l).getD 32 0) / 2

/-- Embedding of `bits.OnesCount64` (population count of a 64-bit value),
used by the comparator `HammingDistance` of the tests package. -/
def onesCount64 (x : ℕ) : ℕ := ∑ i ∈ Finset.range 64, x / 2 ^ i % 2

/-- Embedding of `HammingDistance` (src/unnamed/part_003):
`bits.OnesCount64(h1 ^ h2)`. -/
def HammingDistance (h1 h2 : ℕ) : ℕ := onesCount64 (h1 ^^^ h2)

/-- Embedding of `HammingPercent` (src/unnamed/part_003):
`float64(HammingDistance(h1,h2)) / 64.0 * 100.0`. -/
def HammingPercent (h1 h2 : ℕ) : ℚ := (HammingDistance h1 h2 : ℚ) / 64 * 100

/-! ## Package audio: decoders (src/pkg/audio/decode.go) -/

/-- Little-endian 16-bit read. -/
def u16le (b0 b1 : ℕ) : ℕ := b0 + 256 * b1

/-- Little-endian 32-bit read. -/
def u32le (b0 b1 b2 b3 : ℕ) : ℕ := b0 + 256 * b1 + 65536 * b2 + 16777216 * b3

/-- Reinterpret an unsigned 16-bit value as a signed `int16`. -/
def toInt16 (u : ℕ) : ℤ := if u < 32768 then (u : ℤ) else (u : ℤ) - 65536

/-- Reinterpret an unsigned 32-bit value as a signed `int32`. -/
def toInt32 (u : ℕ) : ℤ :=
  if u < 2147483648 then (u : ℤ) else (u : ℤ) - 4294967296

/-- Exact read of `n` bytes at `pos` (the `io.ReadFull` semantics used by
`binary.Read` on a `bytes.Reader`): `none` when fewer than `n` bytes
remain. -/
def readN (b : List ℕ) (pos n : ℕ) : Option (List ℕ) :=
  if pos + n ≤ b.length then some ((b.drop pos).take n) else none

/-- Embedding of `audio.DecodePCM16LEToFloat64`: pairs of little-endian
bytes scaled by 1/32768; empty or odd-length buffers are errors; the
reported sample rate is 0. -/
def DecodePCM16LEToFloat64 {α : Type} [LinearOrderedField α]
    (b : List ℕ) : Except String (List α × ℤ) :=
  if b.length = 0 then .error "input byte slice is empty"
  else if b.length % 2 ≠ 0 then .error "byte length is not multiple of 2, invalid PCM16LE"
  else .ok (((List.range (b.length / 2)).map
      (fun i => ((toInt16 (u16le (b.getD (2 * i) 0) (b.getD (2 * i + 1) 0)) : ℤ) : α) / 32768)),
    0)

/-- Scan of the chunk list for the `fmt ` chunk in `DecodeWAVToFloat64`.
Returns (position after the chunk, numChannels, sampleRate, bitsPerSample).
Each iteration consumes at least 8 bytes, so fuel `b.length + 1` is never
exhausted on the paths the source can take. -/
def scanFmt (b : List ℕ) : ℕ → ℕ → Except String (ℕ × ℕ × ℕ × ℕ)
  | 0, _ => .error "unexpected EOF"
  | fuel + 1, pos =>
    match readN b pos 4, readN b (pos + 4) 4 with
    | some hdr, some sz =>
      let chunkSize := u32le (sz.getD 0 0) (sz.getD 1 0) (sz.getD 2 0) (sz.getD 3 0)
      if hdr = [102, 109, 116, 32] then
        match readN b (pos + 8) 16 with
        | some body =>
          let audioFormat := u16le (body.getD 0 0) (body.getD 1 0)
          let numChannels := u16le (body.getD 2 0) (body.getD 3 0)
          let sampleRate := u32le (body.getD 4 0) (body.getD 5 0) (body.getD 6 0) (body.getD 7 0)
          let bitsPerSample := u16le (body.getD 14 0) (body.getD 15 0)
          if audioFormat ≠ 1 then .error "only PCM format supported"
          else if bitsPerSample ≠ 16 ∧ bitsPerSample ≠ 24 ∧ bitsPerSample ≠ 32 then
            .error "only 16, 24, or 32-bit WAV supported"
          else .ok (pos + 8 + 16 + (chunkSize - 16), numChannels, sampleRate, bitsPerSample)
        | none => .error "unexpected EOF"
      else scanFmt b fuel (pos + 8 + chunkSize)
    | _, _ => .error "unexpected EOF"

/-- Scan of the chunk list for the `data` chunk.  Returns (position of the
data payload, declared data size). -/
def scanData (b : List ℕ) : ℕ → ℕ → Except String (ℕ × ℕ)
  | 0, _ => .error "unexpected EOF"
  | fuel + 1, pos =>
    match readN b pos 4, readN b (pos + 4) 4 with
    | some hdr, some sz =>
      let chunkSize := u32le (sz.getD 0 0) (sz.getD 1 0) (sz.getD 2 0) (sz.getD 3 0)
      if hdr = [100, 97, 116, 97] then .ok (pos + 8, chunkSize)
      else scanData b fuel (pos + 8 + chunkSize)
    | _, _ => .error "unexpected EOF"

/-- One per-channel sample read inside the decode loop.  16- and 32-bit
reads go through `binary.Read` (exact, erroring on any shortfall); the
24-bit case uses `bytes.Reader.Read` on a fresh 3-byte buffer, which
errors only at end-of-file and otherwise delivers up to 3 bytes, leaving
the remainder of the buffer zero. -/
def readSample {α : Type} [LinearOrderedField α]
    (b : List ℕ) (bits pos : ℕ) : Except String (α × ℕ) :=
  if bits = 16 then
    match readN b pos 2 with
    | some bs => .ok (((toInt16 (u16le (bs.getD 0 0) (bs.getD 1 0)) : ℤ) : α) / 32768, pos + 2)
    | none => .error "unexpected EOF"
  else if bits = 24 then
    if b.length ≤ pos then .error "EOF"
    else
      let raw := b.getD pos 0 + 256 * b.getD (pos + 1) 0 + 65536 * b.getD (pos + 2) 0
      let v : ℤ := if raw < 8388608 then (raw : ℤ) else (raw : ℤ) - 16777216
      .ok ((v : α) / 8388608, min (pos + 3) b.length)
  else if bits = 32 then
    match readN b pos 4 with
    | some bs =>
      .ok (((toInt32 (u32le (bs.getD 0 0) (bs.getD 1 0) (bs.getD 2 0) (bs.getD 3 0)) : ℤ) : α)
          / 2147483648, pos + 4)
    | none => .error "unexpected EOF"
  else .ok (0, pos)

/-- The inner per-channel loop: reads `nch` channel values and sums them. -/
def readChannels {α : Type} [LinearOrderedField α]
    (b : List ℕ) (bits : ℕ) : ℕ → ℕ → Except String (α × ℕ)
  | 0, pos => .ok (0, pos)
  | nch + 1, pos =>
    match readSample b bits pos with
    | .error e => .error e
    | .ok (v, pos') =>
      match readChannels b bits nch pos' with
      | .error e => .error e
      | .ok (sum, pos'') => .ok (v + sum, pos'')

/-- The outer sample loop: reads `n` mono samples, each the average of the
channel values. -/
def readFrames {α : Type} [LinearOrderedField α]
    (b : List ℕ) (bits nch : ℕ) : ℕ → ℕ → Except String (List α × ℕ)
  | 0, pos => .ok ([], pos)
  | n + 1, pos =>
    match readChannels b bits nch pos with
    | .error e => .error e
    | .ok (sum, pos') =>
      match readFrames b bits nch n pos' with
      | .error e => .error e
      | .ok (rest, pos'') => .ok (sum / (nch : α) :: rest, pos'')

/-- Embedding of `audio.DecodeWAVToFloat64`: RIFF/WAVE header check, chunk
scans for `fmt ` and `data`, then the per-sample decode loop.  A zero
channel count would make the Go code panic with an integer division by
zero; the panic is modelled as an error. -/
def DecodeWAVToFloat64 {α : Type} [LinearOrderedField α]
    (b : List ℕ) : Except String (List α × ℤ) :=
  if b.length < 44 then .error "WAV too short to contain header"
  else
    match readN b 0 4, readN b 4 4, readN b 8 4 with
    | some riff, some _, some wave =>
      if riff ≠ [82, 73, 70, 70] then .error "not a RIFF file"
      else if wave ≠ [87, 65, 86, 69] then .error "not a WAVE file"
      else
        match scanFmt b (b.length + 1) 12 with
        | .error e => .error e
        | .ok (pos, numChannels, sampleRate, bitsPerSample) =>
          match scanData b (b.length + 1) pos with
          | .error e => .error e
          | .ok (dataPos, dataSize) =>
            if numChannels = 0 then .error "panic: integer divide by zero"
            else
              let numSamples := dataSize / (bitsPerSample / 8) / numChannels
              match readFrames (α := α) b bitsPerSample numChannels numSamples dataPos with
              | .error e => .error e
              | .ok (samples, _) => .ok (samples, (sampleRate : ℤ))
    | _, _, _ => .error "unexpected EOF"

/-- A 46-byte WAV buffer: RIFF/WAVE header, canonical 16-byte `fmt ` chunk
declaring mono 24-bit PCM at 8000 Hz, and a `data` chunk declaring 3 bytes
of payload while only 2 bytes follow — the final 3-byte sample read is
truncated. -/
def wav24Truncated : List ℕ :=
  [82, 73, 70, 70, 38, 0, 0, 0, 87, 65, 86, 69,
   102, 109, 116, 32, 16, 0, 0, 0, 1, 0, 1, 0, 64, 31, 0, 0, 0, 0, 0, 0, 3, 0, 24, 0,
   100, 97, 116, 97, 3, 0, 0, 0,
   0, 128]

/-! ## Package fft (src, package fft) -/

/-- Embedding of `fft.ComputeMagnitude`: the unnormalized discrete Fourier
transform of the frame, returning the magnitudes of bins `0 .. N/2 - 1`;
an empty frame yields an empty result. -/
noncomputable def ComputeMagnitude (frame : List ℝ) : List ℝ :=
  if frame.length = 0 then []
  else
    (List.range (frame.length / 2)).map (fun k =>
      Complex.abs (∑ j ∈ Finset.range frame.length,
        ((frame.getD j 0 : ℝ) : ℂ)
          * Complex.exp (-(2 * Real.pi * Complex.I * (j : ℂ) * (k : ℂ) / (frame.length : ℂ)))))

/-! ## The canonical pipeline (cmd/audiophash.go, final revision) -/

/-- Embedding of `audiophash.AudioPHashBytes`: validation, decode,
conditional resample, normalization, framing, per-frame magnitude spectra,
median aggregation, a single log compression, and hashing. -/
noncomputable def AudioPHashBytes (b : List ℕ) (cfg : Option Config)
    (fileformat : String) : Except String String :=
  let localCfg := match cfg with
    | none => DefaultConfig 44100
    | some c => c
  match ValidateAndFill localCfg with
  | .error e => .error e
  | .ok localCfg =>
    if b.length = 0 then .error "input bytes empty"
    else
      match (match fileformat with
        | "pcm16" => DecodePCM16LEToFloat64 (α := ℝ) b
        | "pcm16le" => DecodePCM16LEToFloat64 (α := ℝ) b
        | "wav" => DecodeWAVToFloat64 (α := ℝ) b
        | _ => .error ("unsupported audio format: " ++ fileformat)) with
      | .error e => .error e
      | .ok (samples0, sr) =>
        match (if sr ≠ 0 ∧ sr ≠ localCfg.sampleRate
            then Resample samples0 sr localCfg.sampleRate
            else .ok samples0) with
        | .error e => .error e
        | .ok samples1 =>
          let samples := Normalize samples1
          let frames := Frame samples localCfg.frameSize localCfg.hop
          if frames.length = 0 then .error "no frames produced (audio too short?)"
          else if frames.any (fun fr => fr.length == 0) then
            .error "fft compute magnitude returned nil (ensure fft.ComputeMagnitude is implemented)"
          else
            let frameMags := frames.map ComputeMagnitude
            match AggregateGlobalFeatureMedian frameMags localCfg.numBins with
            | none => .error "panic: index out of range"
            | some globalFeature =>
              if globalFeature.length = 0 then .error "no global feature produced"
              else
                let hashHex := AudioPHashFromFeature (LogScaleFeature globalFeature)
                if hashHex = "" then .error "failed to compute pHash"
                else .ok hashHex

/-! ## Supporting lemmas and claim theorems -/

theorem mapO_eq_some_of_forall {α β : Type} (f : α → Option β) :
    ∀ l : List α, (∀ a ∈ l, (f a).isSome) →
      ∃ bs, mapO f l = some bs ∧ bs.length = l.length := by
  intro l
  induction l with
  | nil => intro _; exact ⟨[], rfl, rfl⟩
  | cons a as ih =>
    intro h
    obtain ⟨b, hb⟩ := Option.isSome_iff_exists.mp (h a (List.mem_cons_self a as))
    obtain ⟨bs, hbs, hlen⟩ := ih (fun x hx => h x (List.mem_cons_of_mem a hx))
    exact ⟨b :: bs, by simp [mapO, hb, hbs], by simp [hlen]⟩

theorem mapO_eq_none_of_mem {α β : Type} (f : α → Option β) :
    ∀ l : List α, ∀ a ∈ l, f a = none → mapO f l = none := by
  intro l
  induction l with
  | nil => intro a ha; cases ha
  | cons x xs ih =>
    intro a ha hfa
    rcases List.mem_cons.mp ha with h | h
    · subst h; simp [mapO, hfa]
    · have := ih a h hfa
      cases hfx : f x <;> simp [mapO, hfx, this]

/-! ## Claim C5 -/

/-- C5 counterexample.  The claim states that `ValidateAndFill` fills each
zero-valued field with its default (in particular sampleRate 44100 and
numBins 64) and rejects a negative frame size rather than replacing it by a
default.  In fact a zero sample rate is rejected (not defaulted), a negative
frame size is silently replaced by 2048, and numBins is left untouched. -/
theorem spec_c5_counterexample :
    ValidateAndFill ⟨44100, -5, 1024, 64⟩ = .ok ⟨44100, 2048, 1024, 64⟩
    ∧ ValidateAndFill ⟨0, 0, 0, 0⟩ = .error "sample rate must be > 0" := by
  constructor <;> rfl

/-- C5 (amended): `ValidateAndFill` rejects a non-positive sample rate
(never filling it with a default); it replaces a non-positive (zero or
negative) frameSize with 2048 and a non-positive hop with frameSize/2; it
then rejects a hop outside [1, frameSize] and a non-power-of-two frameSize
with a configuration error; numBins is passed through unvalidated and
unfilled. -/
theorem spec_c5 (c : Config) :
    (c.sampleRate ≤ 0 → ValidateAndFill c = .error "sample rate must be > 0")
    ∧ (0 < c.sampleRate →
        (let fs := if c.frameSize ≤ 0 then 2048 else c.frameSize
         let hp := if c.hop ≤ 0 then fs / 2 else c.hop
         (hp ≤ 0 ∨ fs < hp → ValidateAndFill c = .error "invalid hop: must be 1..FrameSize")
         ∧ (0 < hp → hp ≤ fs → isPowerOfTwo fs = false →
             ValidateAndFill c = .error "frameSize must be a power of two")
         ∧ (0 < hp → hp ≤ fs → isPowerOfTwo fs = true →
             ValidateAndFill c = .ok ⟨c.sampleRate, fs, hp, c.numBins⟩))) := by
  refine ⟨fun h => ?_, fun h => ⟨fun hbad => ?_, fun h1 h2 h3 => ?_, fun h1 h2 h3 => ?_⟩⟩
  · simp [ValidateAndFill, h]
  · simp only [ValidateAndFill, if_neg (not_le.mpr h)]
    rw [if_pos hbad]
  · simp only [ValidateAndFill, if_neg (not_le.mpr h)]
    rw [if_neg (by push_neg; exact ⟨h1, h2⟩), if_pos (by simp [h3])]
  · simp only [ValidateAndFill, if_neg (not_le.mpr h)]
    rw [if_neg (by push_neg; exact ⟨h1, h2⟩), if_neg (by simp [h3])]

/-- C5 witness: concrete instances of the amended behaviour. -/
theorem spec_c5_witness :
    ValidateAndFill ⟨44100, 0, 0, 0⟩ = .ok ⟨44100, 2048, 1024, 0⟩
    ∧ ValidateAndFill ⟨8000, 1000, 0, 64⟩ = .error "frameSize must be a power of two" := by
  constructor
  · exact ((spec_c5 ⟨44100, 0, 0, 0⟩).2 (by norm_num)).2.2 (by norm_num) (by norm_num) (by decide)
  · exact ((spec_c5 ⟨8000, 1000, 0, 64⟩).2 (by norm_num)).2.1 (by norm_num) (by norm_num) (by decide)

/-! ## Claim C6 -/

theorem foldl_ampStep_init_le {α : Type} [LinearOrderedField α] :
    ∀ (l : List α) (c : α), c ≤ l.foldl ampStep c := by
  intro l
  induction l with
  | nil => intro c; exact le_refl c
  | cons a as ih =>
    intro c
    refine le_trans ?_ (ih (ampStep c a))
    unfold ampStep
    split
    · exact le_of_lt (by assumption)
    · exact le_refl c

theorem abs_le_foldl_ampStep {α : Type} [LinearOrderedField α] :
    ∀ (l : List α) (c : α), ∀ x ∈ l, |x| ≤ l.foldl ampStep c := by
  intro l
  induction l with
  | nil => intro c x hx; cases hx
  | cons a as ih =>
    intro c x hx
    rcases List.mem_cons.mp hx with h | h
    · subst h
      refine le_trans ?_ (foldl_ampStep_init_le as (ampStep c x))
      unfold ampStep
      split
      · exact le_refl _
      · exact le_of_not_lt (by assumption)
    · exact ih (ampStep c a) x h

theorem foldl_ampStep_cases {α : Type} [LinearOrderedField α] :
    ∀ (l : List α) (c : α), l.foldl ampStep c = c ∨ ∃ x ∈ l, l.foldl ampStep c = |x| := by
  intro l
  induction l with
  | nil => intro c; exact Or.inl rfl
  | cons a as ih =>
    intro c
    rcases ih (ampStep c a) with h | ⟨x, hx, hfx⟩
    · simp only [List.foldl_cons, h]
      unfold ampStep
      split
      · exact Or.inr ⟨a, List.mem_cons_self a as, rfl⟩
      · exact Or.inl rfl
    · exact Or.inr ⟨x, List.mem_cons_of_mem a hx, by simpa using hfx⟩

theorem foldl_ampStep_scale {α : Type} [LinearOrderedField α] (k : α) (hk : 0 < k) :
    ∀ (l : List α) (c : α), (l.map (fun s => s * k)).foldl ampStep (c * k)
      = (l.foldl ampStep c) * k := by
  intro l
  induction l with
  | nil => intro c; rfl
  | cons a as ih =>
    intro c
    simp only [List.map_cons, List.foldl_cons]
    have hstep : ampStep (c * k) (a * k) = (ampStep c a) * k := by
      unfold ampStep
      rw [abs_mul, abs_of_pos hk]
      rcases lt_or_le c |a| with h | h
      · rw [if_pos (by exact (mul_lt_mul_right hk).mpr h), if_pos h]
      · rw [if_neg (by exact not_lt.mpr ((mul_le_mul_right hk).mpr h)),
          if_neg (not_lt.mpr h)]
    rw [hstep, ih (ampStep c a)]

theorem foldl_ampStep_zero_of_all_zero {α : Type} [LinearOrderedField α] :
    ∀ l : List α, (∀ x ∈ l, x = 0) → l.foldl ampStep 0 = 0 := by
  intro l
  induction l with
  | nil => intro _; rfl
  | cons a as ih =>
    intro h
    have ha : a = 0 := h a (List.mem_cons_self a as)
    have : ampStep (0 : α) a = 0 := by
      unfold ampStep
      rw [ha]
      simp
    simp only [List.foldl_cons, this]
    exact ih (fun x hx => h x (List.mem_cons_of_mem a hx))

/-- C6: for every non-empty, not-entirely-zero sample sequence `s`, the peak
absolute amplitude of `Normalize s` is exactly 1 (every sample has absolute
value at most 1 and some sample attains 1), normalization is idempotent, and
an empty or entirely zero sequence is returned unchanged. -/
theorem spec_c6 (s : List ℚ) (h0 : s ≠ []) (h1 : ∃ x ∈ s, x ≠ 0) :
    (∀ y ∈ Normalize s, |y| ≤ 1)
    ∧ (∃ y ∈ Normalize s, |y| = 1)
    ∧ Normalize (Normalize s) = Normalize s
    ∧ (∀ t : List ℚ, (t = [] ∨ ∀ x ∈ t, x = 0) → Normalize t = t) := by
  obtain ⟨x0, hx0, hx0ne⟩ := h1
  set m : ℚ := s.foldl ampStep 0 with hm
  have hmpos : 0 < m := by
    have h1 : (0 : ℚ) < |x0| := abs_pos.mpr hx0ne
    exact lt_of_lt_of_le h1 (abs_le_foldl_ampStep s 0 x0 hx0)
  have hslen : ¬ s.length = 0 := by simpa [List.length_eq_zero] using h0
  have hnorm : Normalize s = s.map (fun y => y * (1 / m)) := by
    unfold Normalize
    rw [if_neg hslen, if_neg (ne_of_gt hmpos)]
  have hinv : 0 < 1 / m := by positivity
  have hpeak : (s.map (fun y => y * (1 / m))).foldl ampStep 0 = 1 := by
    have := foldl_ampStep_scale (1 / m) hinv s 0
    rw [zero_mul] at this
    rw [this, ← hm, mul_one_div, div_self (ne_of_gt hmpos)]
  refine ⟨?_, ?_, ?_, ?_⟩
  · intro y hy
    rw [hnorm] at hy
    have := abs_le_foldl_ampStep (s.map (fun y => y * (1 / m))) 0 y hy
    rw [hpeak] at this
    exact this
  · rcases foldl_ampStep_cases (s.map (fun y => y * (1 / m))) (0 : ℚ) with h | ⟨y, hy, hfy⟩
    · rw [hpeak] at h; exact absurd h one_ne_zero
    · rw [hpeak] at hfy
      exact ⟨y, by rw [hnorm]; exact hy, hfy.symm⟩
  · rw [hnorm]
    have hlen2 : ¬ (s.map (fun y => y * (1 / m))).length = 0 := by
      simpa [List.length_eq_zero, List.map_eq_nil_iff] using h0
    unfold Normalize
    rw [if_neg hlen2]
    rw [hpeak]
    norm_num
  · intro t ht
    rcases ht with h | h
    · subst h; rfl
    · unfold Normalize
      split
      · rfl
      · rw [if_pos (foldl_ampStep_zero_of_all_zero t h)]

/-- C6 witness: instantiation at the sequence `[1/2, 0]`. -/
theorem spec_c6_witness :
    (∀ y ∈ Normalize [(1 : ℚ)/2, 0], |y| ≤ 1)
    ∧ (∃ y ∈ Normalize [(1 : ℚ)/2, 0], |y| = 1)
    ∧ Normalize (Normalize [(1 : ℚ)/2, 0]) = Normalize [(1 : ℚ)/2, 0] := by
  have h := spec_c6 [(1 : ℚ)/2, 0] (by simp) ⟨1/2, by simp, by norm_num⟩
  exact ⟨h.1, h.2.1, h.2.2.1⟩

/-! ## Claim C7 -/

/-- C7: `Resample s r r = s` for every rate `r > 0` and non-empty `s`, and
`Resample` fails with an error exactly when a rate is non-positive or the
input sequence is empty. -/
theorem spec_c7 :
    (∀ (s : List ℚ) (r : ℤ), 0 < r → s ≠ [] → Resample s r r = .ok s)
    ∧ (∀ (s : List ℚ) (f t : ℤ),
        (∃ e, Resample s f t = .error e) ↔ (f ≤ 0 ∨ t ≤ 0 ∨ s = [])) := by
  constructor
  · intro s r hr hs
    unfold Resample
    rw [if_neg (by push_neg; exact ⟨hr, hr⟩),
      if_neg (by simpa [List.length_eq_zero] using hs), if_pos rfl]
  · intro s f t
    constructor
    · rintro ⟨e, he⟩
      by_contra hcon
      push_neg at hcon
      obtain ⟨hf, ht, hs⟩ := hcon
      unfold Resample at he
      rw [if_neg (by push_neg; exact ⟨hf, ht⟩),
        if_neg (by simpa [List.length_eq_zero] using hs)] at he
      split at he <;> cases he
    · intro h
      unfold Resample
      rcases em (f ≤ 0 ∨ t ≤ 0) with hft | hft
      · exact ⟨_, by rw [if_pos hft]⟩
      · have hs : s = [] := by tauto
        exact ⟨_, by rw [if_neg hft, if_pos (by simp [hs])]⟩

/-- C7 witness: instantiation at `s = [1, 2]`, `r = 3`. -/
theorem spec_c7_witness :
    Resample [(1 : ℚ), 2] 3 3 = .ok [(1 : ℚ), 2]
    ∧ ((∃ e, Resample ([] : List ℚ) 3 3 = .error e) ↔
        ((3 : ℤ) ≤ 0 ∨ (3 : ℤ) ≤ 0 ∨ ([] : List ℚ) = [])) :=
  ⟨spec_c7.1 [(1 : ℚ), 2] 3 (by norm_num) (by simp),
   spec_c7.2 ([] : List ℚ) 3 3⟩

/-! ## Claim C4 -/

theorem getD_eq_get {β : Type} (l : List β) (d : β) (n : ℕ) (h : n < l.length) :
    l.getD n d = l.get ⟨n, h⟩ := by
  rw [List.getD_eq_getElem?_getD, List.getElem?_eq_getElem h]
  simp

theorem getD_map_range {β : Type} (f : ℕ → β) (n j : ℕ) (d : β) (h : j < n) :
    ((List.range n).map f).getD j d = f j := by
  rw [List.getD_eq_getElem?_getD,
    List.getElem?_eq_getElem (by simp only [List.length_map, List.length_range]; exact h)]
  simp

/-- C4: for every sample sequence, `frameSize > 0` and `1 ≤ hop ≤ frameSize`,
`Frame` returns exactly `max 0 (1 + floor((len - frameSize)/hop))` frames
(in particular zero frames when the sequence is shorter than `frameSize`),
and entry `k` of frame `j` is `samples[j*hop + k]` times the Hann window
value `0.5 * (1 - cos(2*pi*k/(frameSize-1)))`. -/
theorem spec_c4 (s : List ℝ) (frameSize hop : ℤ)
    (hN : 0 < frameSize) (h1 : 1 ≤ hop) (h2 : hop ≤ frameSize) :
    (Frame s frameSize hop).length
      = (max 0 (1 + ((s.length : ℤ) - frameSize).fdiv hop)).toNat
    ∧ (s.length < frameSize.toNat → Frame s frameSize hop = [])
    ∧ (∀ j k, j < (Frame s frameSize hop).length → k < frameSize.toNat →
        ((Frame s frameSize hop).getD j []).getD k 0
          = s.getD (j * hop.toNat + k) 0
            * (0.5 * (1 - Real.cos (2 * Real.pi * (k : ℝ) / ((frameSize : ℝ) - 1))))) := by
  have hguard : ¬ (frameSize ≤ 0 ∨ hop ≤ 0 ∨ frameSize < hop) := by
    push_neg
    exact ⟨hN, lt_of_lt_of_le one_pos h1, h2⟩
  have hframe : Frame s frameSize hop
      = (List.range (if frameSize.toNat ≤ s.length
            then (s.length - frameSize.toNat) / hop.toNat + 1 else 0)).map (fun j =>
          (List.range frameSize.toNat).map
            (fun k => s.getD (j * hop.toNat + k) 0 * hannWindow frameSize.toNat k)) := by
    unfold Frame
    rw [if_neg hguard]
  have hcount : (if frameSize.toNat ≤ s.length
        then (s.length - frameSize.toNat) / hop.toNat + 1 else 0)
      = (max 0 (1 + ((s.length : ℤ) - frameSize).fdiv hop)).toNat := by
    rcases le_or_lt frameSize.toNat s.length with hle | hlt
    · rw [if_pos hle]
      have hfs : ((frameSize.toNat : ℤ)) = frameSize := Int.toNat_of_nonneg (le_of_lt hN)
      have hsub : (s.length : ℤ) - frameSize = ((s.length - frameSize.toNat : ℕ) : ℤ) := by
        omega
      have hdiv : ((s.length : ℤ) - frameSize).fdiv hop
          = (((s.length - frameSize.toNat) / hop.toNat : ℕ) : ℤ) := by
        rw [hsub, Int.fdiv_eq_ediv _ (by omega)]
        rw [show hop = ((hop.toNat : ℕ) : ℤ) by omega]
        exact (Int.ofNat_ediv _ _).symm
      rw [hdiv]
      generalize (s.length - frameSize.toNat) / hop.toNat = q
      omega
    · rw [if_neg (not_le.mpr hlt)]
      have hneg : ((s.length : ℤ) - frameSize).fdiv hop < 0 := by
        rw [Int.fdiv_eq_ediv _ (by omega)]
        exact Int.ediv_neg' (by omega) (by omega)
      generalize hq : ((s.length : ℤ) - frameSize).fdiv hop = q at hneg ⊢
      omega
  refine ⟨?_, ?_, ?_⟩
  · rw [hframe, List.length_map, List.length_range, hcount]
  · intro hshort
    rw [hframe]
    rw [if_neg (by omega)]
    rfl
  · intro j k hj hk
    rw [hframe] at hj ⊢
    rw [List.length_map, List.length_range] at hj
    have hwin : hannWindow frameSize.toNat k
        = 0.5 * (1 - Real.cos (2 * Real.pi * (k : ℝ) / ((frameSize : ℝ) - 1))) := by
      unfold hannWindow
      have : ((frameSize.toNat : ℕ) : ℝ) = (frameSize : ℝ) := by
        rw [show ((frameSize.toNat : ℕ) : ℝ) = ((frameSize.toNat : ℤ) : ℝ) by push_cast; ring,
          Int.toNat_of_nonneg (le_of_lt hN)]
      rw [this]
    rw [getD_map_range _ _ _ _ hj, getD_map_range _ _ _ _ hk, hwin]

/-- C4 witness: instantiation at `s = [1, 2, 3]`, `frameSize = 2`, `hop = 1`. -/
theorem spec_c4_witness :
    (Frame [(1 : ℝ), 2, 3] 2 1).length
      = (max 0 (1 + (((3 : ℕ) : ℤ) - 2).fdiv 1)).toNat
    ∧ (([] : List ℝ).length < (2 : ℤ).toNat → Frame [] 2 1 = []) := by
  have h := spec_c4 [(1 : ℝ), 2, 3] 2 1 (by norm_num) (by norm_num) (by norm_num)
  have h2 := spec_c4 ([] : List ℝ) 2 1 (by norm_num) (by norm_num) (by norm_num)
  exact ⟨by simpa using h.1, h2.2.1⟩

/-! ## Claim C10 -/

theorem mapO_bins_some {α β : Type} (mags : List (List α)) (g : List α → β) (nb : ℕ)
    (h : ∀ m ∈ mags, nb ≤ m.length) :
    ∃ gf, mapO (fun bin => (mapO (fun f => f[bin]?) mags).map g) (List.range nb) = some gf
      ∧ gf.length = nb := by
  have hmem : ∀ bin ∈ List.range nb, ((mapO (fun f => f[bin]?) mags).map g).isSome := by
    intro bin hbin
    obtain ⟨vs, hvs, _⟩ := mapO_eq_some_of_forall (fun f : List α => f[bin]?) mags (by
      intro m hm
      have hlt : bin < m.length := lt_of_lt_of_le (List.mem_range.mp hbin) (h m hm)
      simp [List.getElem?_eq_getElem hlt])
    simp [hvs]
  obtain ⟨gf, hgf, hlen⟩ := mapO_eq_some_of_forall _ (List.range nb) hmem
  exact ⟨gf, hgf, by simpa using hlen⟩

theorem mapO_bins_none {α β : Type} (mags : List (List α)) (g : List α → β) (nb : ℕ)
    (m : List α) (hm : m ∈ mags) (hshort : m.length < nb) :
    mapO (fun bin => (mapO (fun f => f[bin]?) mags).map g) (List.range nb) = none := by
  apply mapO_eq_none_of_mem _ _ m.length (List.mem_range.mpr hshort)
  rw [mapO_eq_none_of_mem (fun f : List α => f[m.length]?) mags m hm
    (List.getElem?_eq_none (le_refl _))]
  rfl

/-- C10: the three aggregators clamp `numBins` using only the length of the
first frame's spectrum; when every inner spectrum has the same length `L`
and `numBins > 0`, every element access is in bounds (the aggregators
return `some` vector of length `min numBins L`); a frame shorter than
`min numBins L` makes an access out of range (result `none`). -/
theorem spec_c10 :
    (∀ (mags : List (List ℚ)) (numBins : ℤ) (L : ℕ),
      mags ≠ [] → 0 < numBins → (∀ m ∈ mags, m.length = L) →
      (∃ gf, AggregateGlobalFeatureMedian mags numBins = some gf ∧ gf.length = min numBins.toNat L)
      ∧ (∃ gf, ExtractGlobalFeature mags numBins = some gf ∧ gf.length = min numBins.toNat L)
      ∧ (∃ gf, AggregateGlobalFeature mags numBins = some gf ∧ gf.length = min numBins.toNat L))
    ∧ (∀ (mags : List (List ℚ)) (numBins : ℤ) (m : List ℚ),
      mags ≠ [] → 0 < numBins → m ∈ mags →
      m.length < min numBins.toNat mags.headI.length →
      AggregateGlobalFeatureMedian mags numBins = none
      ∧ ExtractGlobalFeature mags numBins = none
      ∧ AggregateGlobalFeature mags numBins = none) := by
  constructor
  · intro mags numBins L hne hpos hlen
    have hguard : ¬ (mags.length = 0 ∨ numBins ≤ 0) := by
      push_neg
      exact ⟨by simpa [List.length_eq_zero] using hne, hpos⟩
    have hheadI : mags.headI.length = L := by
      cases mags with
      | nil => exact absurd rfl hne
      | cons m0 rest => exact hlen m0 (List.mem_cons_self m0 rest)
    have hnb : (if (mags.headI.length : ℤ) < numBins then (mags.headI.length : ℤ)
        else numBins).toNat = min numBins.toNat L := by
      rw [hheadI]
      rcases lt_or_le (L : ℤ) numBins with h | h
      · rw [if_pos h]; omega
      · rw [if_neg (not_lt.mpr h)]; omega
    have hacc : ∀ m ∈ mags, min numBins.toNat L ≤ m.length := by
      intro m hm
      rw [hlen m hm]
      omega
    refine ⟨?_, ?_, ?_⟩
    · unfold AggregateGlobalFeatureMedian
      rw [if_neg hguard]
      simp only []
      rw [hnb]
      exact mapO_bins_some mags Features.median (min numBins.toNat L) hacc
    · unfold ExtractGlobalFeature
      rw [if_neg hguard]
      simp only []
      rw [hnb]
      exact mapO_bins_some mags _ (min numBins.toNat L) hacc
    · unfold AggregateGlobalFeature
      rw [if_neg hguard]
      simp only []
      rw [hnb]
      exact mapO_bins_some mags _ (min numBins.toNat L) hacc
  · intro mags numBins m hne hpos hm hshort
    have hguard : ¬ (mags.length = 0 ∨ numBins ≤ 0) := by
      push_neg
      exact ⟨by simpa [List.length_eq_zero] using hne, hpos⟩
    have hnb : (if (mags.headI.length : ℤ) < numBins then (mags.headI.length : ℤ)
        else numBins).toNat = min numBins.toNat mags.headI.length := by
      rcases lt_or_le (mags.headI.length : ℤ) numBins with h | h
      · rw [if_pos h]; omega
      · rw [if_neg (not_lt.mpr h)]; omega
    refine ⟨?_, ?_, ?_⟩
    · unfold AggregateGlobalFeatureMedian
      rw [if_neg hguard]
      simp only []
      rw [hnb]
      exact mapO_bins_none mags _ _ m hm hshort
    · unfold ExtractGlobalFeature
      rw [if_neg hguard]
      simp only []
      rw [hnb]
      exact mapO_bins_none mags _ _ m hm hshort
    · unfold AggregateGlobalFeature
      rw [if_neg hguard]
      simp only []
      rw [hnb]
      exact mapO_bins_none mags _ _ m hm hshort

/-- C10 witness: a uniform spectrum list has all accesses in bounds; a
shorter second frame drives an access out of range. -/
theorem spec_c10_witness :
    (∃ gf, AggregateGlobalFeatureMedian [[(1 : ℚ), 2], [3, 4]] 2 = some gf
      ∧ gf.length = min (2 : ℤ).toNat 2)
    ∧ AggregateGlobalFeatureMedian [[(1 : ℚ), 2], [3]] 2 = none := by
  constructor
  · exact ((spec_c10.1 [[(1 : ℚ), 2], [3, 4]] 2 2 (by simp) (by norm_num)
      (by intro m hm; fin_cases hm <;> rfl)).1)
  · exact (spec_c10.2 [[(1 : ℚ), 2], [3]] 2 [3] (by simp) (by norm_num)
      (by simp) (by simp)).1

/-! ## Claims C1 and C9: the padded vector, its median, and the bit loop -/

theorem paddedFeature_length {α : Type} [LinearOrderedField α] (f : List α) :
    (paddedFeature f).length = 64 := by
  simp only [paddedFeature, List.length_append, List.length_take, List.length_replicate]
  omega

theorem paddedFeature_eq_spec {α : Type} [LinearOrderedField α] (f : List α) :
    paddedFeature f = specPaddedVector f := by
  apply List.ext_getElem
  · rw [paddedFeature_length]
    simp [specPaddedVector]
  · intro i hi hi'
    have hi64 : i < 64 := by
      rw [paddedFeature_length] at hi
      exact hi
    have hspec : (specPaddedVector f)[i] = f.getD i 0 := by
      simp [specPaddedVector]
    rw [hspec]
    unfold paddedFeature
    rcases lt_or_le i (f.take 64).length with h | h
    · rw [List.getElem_append_left h]
      have hif : i < f.length := by
        simp only [List.length_take] at h
        omega
      rw [List.getElem_take]
      rw [List.getD_eq_getElem?_getD, List.getElem?_eq_getElem hif]
      rfl
    · rw [List.getElem_append_right h]
      simp only [List.getElem_replicate]
      have hof : f.length ≤ i := by
        simp only [List.length_take] at h
        omega
      rw [List.getD_eq_getElem?_getD, List.getElem?_eq_none hof]
      rfl

theorem hashMedian_eq_spec {α : Type} [LinearOrderedField α] (f : List α) :
    Hash.median (paddedFeature f) = specMedian64 (specPaddedVector f) := by
  unfold Hash.median specMedian64
  rw [paddedFeature_length, paddedFeature_eq_spec]
  rw [if_pos (by norm_num)]

theorem hashFoldFrom_testBit {α : Type} [LinearOrderedField α] (med : α) :
    ∀ (l : List α) (n acc j : ℕ),
      (((l.enumFrom n).foldl
          (fun h p => if med < p.2 then h ||| 2 ^ (63 - p.1) else h) acc).testBit j = true)
      ↔ (acc.testBit j = true
          ∨ ∃ i, ∃ hi : i < l.length, med < l[i] ∧ 63 - (n + i) = j) := by
  intro l
  induction l with
  | nil =>
    intro n acc j
    simp [List.enumFrom]
  | cons a t ih =>
    intro n acc j
    simp only [List.enumFrom_cons, List.foldl_cons]
    rw [ih (n + 1) (if med < a then acc ||| 2 ^ (63 - n) else acc) j]
    constructor
    · rintro (hacc | ⟨i, hi, hmed, hj⟩)
      · by_cases hma : med < a
        · rw [if_pos hma, Nat.testBit_or, Bool.or_eq_true] at hacc
          rcases hacc with h | h
          · exact Or.inl h
          · rw [Nat.testBit_two_pow] at h
            refine Or.inr ⟨0, by simp, by simpa using hma, ?_⟩
            have := of_decide_eq_true h
            omega
        · rw [if_neg hma] at hacc
          exact Or.inl hacc
      · exact Or.inr ⟨i + 1, by simpa using Nat.succ_lt_succ hi, by simpa using hmed, by omega⟩
    · rintro (hacc | ⟨i, hi, hmed, hj⟩)
      · refine Or.inl ?_
        by_cases hma : med < a
        · rw [if_pos hma, Nat.testBit_or, hacc]
          rfl
        · rw [if_neg hma]
          exact hacc
      · cases i with
        | zero =>
          refine Or.inl ?_
          have hma : med < a := by simpa using hmed
          rw [if_pos hma, Nat.testBit_or]
          have hbit : (2 ^ (63 - n)).testBit j = true := by
            rw [Nat.testBit_two_pow]
            exact decide_eq_true (by omega)
          rw [hbit]
          simp
        | succ i =>
          exact Or.inr ⟨i, by simpa using hi, by simpa using hmed, by omega⟩

theorem audioPHashValue_testBit {α : Type} [LinearOrderedField α] (f : List α) (j : ℕ) :
    ((audioPHashValue f).testBit j = true)
    ↔ (j < 64
        ∧ specMedian64 (specPaddedVector f) < (specPaddedVector f).getD (63 - j) 0) := by
  show ((((paddedFeature f).enumFrom 0).foldl
      (fun (h : ℕ) (p : ℕ × α) =>
        if Hash.median (paddedFeature f) < p.2 then h ||| 2 ^ (63 - p.1) else h)
      0).testBit j = true) ↔ _
  rw [hashFoldFrom_testBit (Hash.median (paddedFeature f)) (paddedFeature f) 0 0 j]
  rw [hashMedian_eq_spec]
  have hlen := paddedFeature_length f
  constructor
  · rintro (h0 | ⟨i, hi, hmed, hj⟩)
    · rw [Nat.zero_testBit] at h0
      cases h0
    · rw [hlen] at hi
      have hij : i = 63 - j := by omega
      refine ⟨by omega, ?_⟩
      subst hij
      have hb : 63 - j < (paddedFeature f).length := by rw [hlen]; omega
      have hx : (specPaddedVector f).getD (63 - j) 0 = (paddedFeature f).get ⟨63 - j, hb⟩ := by
        rw [← paddedFeature_eq_spec]
        exact getD_eq_get _ _ _ hb
      rw [hx, List.get_eq_getElem]
      exact hmed
  · rintro ⟨hj64, hmed⟩
    refine Or.inr ⟨63 - j, by omega, ?_, by omega⟩
    have hb : 63 - j < (paddedFeature f).length := by rw [hlen]; omega
    have hx : (specPaddedVector f).getD (63 - j) 0 = (paddedFeature f).get ⟨63 - j, hb⟩ := by
      rw [← paddedFeature_eq_spec]
      exact getD_eq_get _ _ _ hb
    rw [hx, List.get_eq_getElem] at hmed
    exact hmed

theorem audioPHashValue_lt {α : Type} [LinearOrderedField α] (f : List α) :
    audioPHashValue f < 2 ^ 64 := by
  apply Nat.lt_pow_two_of_testBit
  intro i hi
  by_contra h
  have := (audioPHashValue_testBit f i).mp (by
    cases hbit : (audioPHashValue f).testBit i
    · exact absurd hbit h
    · rfl)
  omega

theorem div_pow_mod_two_eq (x i : ℕ) :
    x / 2 ^ i % 2 = if x.testBit i then 1 else 0 := by
  rw [Nat.testBit_to_div_mod]
  rcases Nat.mod_two_eq_zero_or_one (x / 2 ^ i) with h | h <;> simp [h]

theorem onesCount64_eq_sum_testBit (x : ℕ) :
    onesCount64 x = ∑ i ∈ Finset.range 64, (if x.testBit i then 1 else 0) := by
  unfold onesCount64
  exact Finset.sum_congr rfl (fun i _ => div_pow_mod_two_eq x i)

theorem onesCount64_le (x : ℕ) : onesCount64 x ≤ 64 := by
  unfold onesCount64
  calc ∑ i ∈ Finset.range 64, x / 2 ^ i % 2
      ≤ ∑ _i ∈ Finset.range 64, 1 :=
        Finset.sum_le_sum (fun i _ => Nat.le_of_lt_succ (Nat.mod_lt _ (by norm_num)))
    _ = 64 := by simp

theorem onesCount64_eq_zero_iff (x : ℕ) (hx : x < 2 ^ 64) :
    onesCount64 x = 0 ↔ x = 0 := by
  constructor
  · intro h
    apply Nat.eq_of_testBit_eq
    intro i
    rw [Nat.zero_testBit]
    rcases lt_or_le i 64 with hi | hi
    · have h0 := Finset.sum_eq_zero_iff.mp h i (Finset.mem_range.mpr hi)
      rw [Nat.testBit_to_div_mod]
      simp [h0]
    · exact Nat.testBit_lt_two_pow
        (lt_of_lt_of_le hx (Nat.pow_le_pow_right (by norm_num) hi))
  · intro h
    subst h
    unfold onesCount64
    simp

/-! ## Claim C3 -/

/-- C3: the comparator returns Hamming distance `popcount(a XOR b)` in
[0,64] and percentage `distance/64*100` in [0,100]; the distance is
symmetric and zero exactly when the fingerprints are equal. -/
theorem spec_c3 (a b : ℕ) (ha : a < 2 ^ 64) (hb : b < 2 ^ 64) :
    HammingDistance a b ≤ 64
    ∧ 0 ≤ HammingPercent a b ∧ HammingPercent a b ≤ 100
    ∧ HammingDistance a b = HammingDistance b a
    ∧ (HammingDistance a b = 0 ↔ a = b)
    ∧ HammingPercent a b = (HammingDistance a b : ℚ) / 64 * 100 := by
  have hsym : HammingDistance a b = HammingDistance b a := by
    unfold HammingDistance
    rw [Nat.xor_comm]
  have hzero : HammingDistance a b = 0 ↔ a = b := by
    unfold HammingDistance
    rw [onesCount64_eq_zero_iff _ (Nat.xor_lt_two_pow ha hb)]
    exact Nat.xor_eq_zero
  refine ⟨onesCount64_le _, ?_, ?_, hsym, hzero, rfl⟩
  · unfold HammingPercent
    exact mul_nonneg (div_nonneg (Nat.cast_nonneg _) (by norm_num)) (by norm_num)
  · unfold HammingPercent
    have hcast : (HammingDistance a b : ℚ) ≤ 64 := by
      exact_mod_cast onesCount64_le (a ^^^ b)
    generalize hd : (HammingDistance a b : ℚ) = d at hcast
    rw [div_mul_eq_mul_div, div_le_iff₀ (by norm_num)]
    linarith

/-- C3 witness: instantiation at the fingerprints 3 and 5. -/
theorem spec_c3_witness :
    HammingDistance 3 5 ≤ 64
    ∧ HammingDistance 3 5 = HammingDistance 5 3
    ∧ (HammingDistance 3 5 = 0 ↔ (3 : ℕ) = 5) := by
  have h := spec_c3 3 5 (by norm_num) (by norm_num)
  exact ⟨h.1, h.2.2.2.1, h.2.2.2.2.1⟩

/-! ## Claim C1 -/

theorem hexDigit_mem_charset : ∀ n, n < 16 → hexDigit n ∈ "0123456789abcdef".data := by
  decide

theorem specPaddedVector_length {α : Type} [LinearOrderedField α] (f : List α) :
    (specPaddedVector f).length = 64 := by
  simp [specPaddedVector]

/-- C1: for a non-empty feature vector the hash is the 16-character
lowercase zero-padded hexadecimal rendering of the 64-bit value whose bit
`i` (0 = most significant) is set exactly when entry `i` of the
zero-padded/truncated 64-entry vector strictly exceeds that vector's
even-count median; an empty feature vector yields the empty string. -/
theorem spec_c1 (f : List ℚ) :
    (f = [] → AudioPHashFromFeature f = "")
    ∧ (f ≠ [] →
        ∃ v : ℕ, v < 2 ^ 64
          ∧ (∀ i, i < 64 → ((v.testBit (63 - i) = true)
              ↔ specMedian64 (specPaddedVector f) < (specPaddedVector f).getD i 0))
          ∧ AudioPHashFromFeature f = toHex16 v
          ∧ (AudioPHashFromFeature f).length = 16
          ∧ ∀ c ∈ (AudioPHashFromFeature f).data, c ∈ "0123456789abcdef".data) := by
  constructor
  · intro h
    subst h
    rfl
  · intro hne
    have hlne : ¬ f.length = 0 := by simpa [List.length_eq_zero] using hne
    have hfeq : AudioPHashFromFeature f = toHex16 (audioPHashValue f) := by
      unfold AudioPHashFromFeature
      rw [if_neg hlne]
    refine ⟨audioPHashValue f, audioPHashValue_lt f, ?_, hfeq, ?_, ?_⟩
    · intro i hi
      rw [audioPHashValue_testBit f (63 - i)]
      constructor
      · rintro ⟨_, hmed⟩
        rwa [show 63 - (63 - i) = i by omega] at hmed
      · intro hmed
        exact ⟨by omega, by rwa [show 63 - (63 - i) = i by omega]⟩
    · rw [hfeq]
      unfold toHex16
      rw [String.length_mk]
      simp
    · intro c hc
      rw [hfeq] at hc
      unfold toHex16 at hc
      have hc' : c ∈ (List.range 16).map
          (fun j => hexDigit (audioPHashValue f / 16 ^ (15 - j) % 16)) := hc
      obtain ⟨j, _, rfl⟩ := List.mem_map.mp hc'
      exact hexDigit_mem_charset _ (Nat.mod_lt _ (by norm_num))

/-- C1 witness: instantiation at the empty vector and at `[3, 1]`. -/
theorem spec_c1_witness :
    AudioPHashFromFeature ([] : List ℚ) = ""
    ∧ (∃ v : ℕ, v < 2 ^ 64
        ∧ (∀ i, i < 64 → ((v.testBit (63 - i) = true)
            ↔ specMedian64 (specPaddedVector [(3 : ℚ), 1])
                < (specPaddedVector [(3 : ℚ), 1]).getD i 0))
        ∧ AudioPHashFromFeature [(3 : ℚ), 1] = toHex16 v
        ∧ (AudioPHashFromFeature [(3 : ℚ), 1]).length = 16
        ∧ ∀ c ∈ (AudioPHashFromFeature [(3 : ℚ), 1]).data, c ∈ "0123456789abcdef".data) :=
  ⟨(spec_c1 []).1 rfl, (spec_c1 [(3 : ℚ), 1]).2 (by simp)⟩

/-! ## Claim C9 -/

theorem countP_eq_sum_range {β : Type} (p : β → Bool) (d : β) :
    ∀ l : List β,
      l.countP p = ∑ i ∈ Finset.range l.length, (if p (l.getD i d) then 1 else 0) := by
  intro l
  induction l with
  | nil => simp
  | cons a t ih =>
    rw [List.countP_cons, List.length_cons, Finset.sum_range_succ']
    simp only [List.getD_cons_succ, List.getD_cons_zero]
    rw [ih]

theorem onesCount64_value_eq_countP {α : Type} [LinearOrderedField α] (f : List α) :
    onesCount64 (audioPHashValue f)
      = (specPaddedVector f).countP
          (fun x => decide (specMedian64 (specPaddedVector f) < x)) := by
  rw [onesCount64_eq_sum_testBit]
  have h1 : ∀ j ∈ Finset.range 64,
      (if (audioPHashValue f).testBit j then (1 : ℕ) else 0)
      = (if specMedian64 (specPaddedVector f)
            < (specPaddedVector f).getD (63 - j) 0 then 1 else 0) := by
    intro j hj
    have hj64 : j < 64 := Finset.mem_range.mp hj
    by_cases hb : (audioPHashValue f).testBit j = true
    · rw [if_pos hb, if_pos ((audioPHashValue_testBit f j).mp hb).2]
    · rw [if_neg hb, if_neg]
      intro hcon
      exact hb ((audioPHashValue_testBit f j).mpr ⟨hj64, hcon⟩)
  rw [Finset.sum_congr rfl h1]
  rw [countP_eq_sum_range _ (0 : α), specPaddedVector_length]
  rw [← Finset.sum_range_reflect
    (fun i => if decide (specMedian64 (specPaddedVector f)
        < (specPaddedVector f).getD i 0) = true then (1 : ℕ) else 0) 64]
  apply Finset.sum_congr rfl
  intro j hj
  rw [show (64 : ℕ) - 1 - j = 63 - j by omega]
  simp only [decide_eq_true_eq]

theorem countP_gt_specMedian_le {α : Type} [LinearOrderedField α] (f : List α) :
    (specPaddedVector f).countP
      (fun x => decide (specMedian64 (specPaddedVector f) < x)) ≤ 32 := by
  have hperm : List.Perm (List.insertionSort (· ≤ ·) (specPaddedVector f))
      (specPaddedVector f) :=
    List.perm_insertionSort (· ≤ ·) (specPaddedVector f)
  have hsort : (List.insertionSort (· ≤ ·) (specPaddedVector f)).Sorted (· ≤ ·) :=
    List.sorted_insertionSort (· ≤ ·) (specPaddedVector f)
  set s : List α := List.insertionSort (· ≤ ·) (specPaddedVector f) with hs
  have hlens : s.length = 64 := by
    rw [hperm.length_eq, specPaddedVector_length]
  rw [← hperm.countP_eq]
  have h31 : (31 : ℕ) < s.length := by omega
  have h32 : (32 : ℕ) < s.length := by omega
  have hmed : s[31] ≤ specMedian64 (specPaddedVector f) := by
    have h3132 : s[31] ≤ s[32] := by
      have := hsort.rel_get_of_lt (a := ⟨31, h31⟩) (b := ⟨32, h32⟩)
        (by exact Fin.mk_lt_mk.mpr (by norm_num))
      simpa using this
    have hgd31 : s.getD 31 0 = s[31] := by
      rw [List.getD_eq_getElem?_getD, List.getElem?_eq_getElem h31]
      rfl
    have hgd32 : s.getD 32 0 = s[32] := by
      rw [List.getD_eq_getElem?_getD, List.getElem?_eq_getElem h32]
      rfl
    unfold specMedian64
    rw [← hs, hgd31, hgd32]
    linarith
  have hsplit : s.take 32 ++ s.drop 32 = s := List.take_append_drop 32 s
  have htake : (s.take 32).countP
      (fun x => decide (specMedian64 (specPaddedVector f) < x)) = 0 := by
    rw [List.countP_eq_zero]
    intro x hx
    obtain ⟨i, hi, hxe⟩ := List.getElem_of_mem hx
    have hi32 : i < 32 := by
      have := hi
      rw [List.length_take, hlens] at this
      omega
    have his : i < s.length := by omega
    have hxs : x = s[i] := by
      rw [← hxe, List.getElem_take]
    have hle31 : s[i] ≤ s[31] := by
      have := hsort.rel_get_of_le (a := ⟨i, his⟩) (b := ⟨31, h31⟩)
        (by exact Fin.mk_le_mk.mpr (by omega))
      simpa using this
    simp only [decide_eq_true_eq]
    rw [hxs]
    push_neg
    exact le_trans hle31 hmed
  have hdrop : (s.drop 32).countP
      (fun x => decide (specMedian64 (specPaddedVector f) < x)) ≤ 32 := by
    calc (s.drop 32).countP (fun x => decide (specMedian64 (specPaddedVector f) < x))
        ≤ (s.drop 32).length := List.countP_le_length _
      _ = 32 := by rw [List.length_drop, hlens]
  calc s.countP (fun x => decide (specMedian64 (specPaddedVector f) < x))
      = (s.take 32 ++ s.drop 32).countP
          (fun x => decide (specMedian64 (specPaddedVector f) < x)) := by rw [hsplit]
    _ = (s.take 32).countP (fun x => decide (specMedian64 (specPaddedVector f) < x))
          + (s.drop 32).countP (fun x => decide (specMedian64 (specPaddedVector f) < x)) :=
        List.countP_append _ _ _
    _ ≤ 32 := by rw [htake]; omega

/-- C9: the 64-bit value encoded in the hex string returned by
`AudioPHashFromFeature` for a non-empty feature vector has at most 32 set
bits: the median of the 64-entry padded vector is at least its 32nd order
statistic, so at most 32 entries exceed it strictly. -/
theorem spec_c9 (f : List ℚ) (h : f ≠ []) :
    AudioPHashFromFeature f = toHex16 (audioPHashValue f)
    ∧ onesCount64 (audioPHashValue f) ≤ 32 := by
  constructor
  · unfold AudioPHashFromFeature
    rw [if_neg (by simpa [List.length_eq_zero] using h)]
  · rw [onesCount64_value_eq_countP]
    exact countP_gt_specMedian_le f

/-- C9 witness: instantiation at the vector `[3, 1]`. -/
theorem spec_c9_witness :
    AudioPHashFromFeature [(3 : ℚ), 1] = toHex16 (audioPHashValue [(3 : ℚ), 1])
    ∧ onesCount64 (audioPHashValue [(3 : ℚ), 1]) ≤ 32 :=
  spec_c9 [(3 : ℚ), 1] (by simp)

/-! ## Claim C8 -/

/-- C8: the claim states that for every bit depth in {16,24,32}, a buffer
holding fewer bytes than the data chunk's declared size makes decoding
return an error.  The 24-bit sample loop reads through `bytes.Reader.Read`
without checking the byte count, so a buffer truncated inside the final
3-byte sample decodes *successfully*, returning a sample zero-padded in
its missing high byte instead of an error. -/
theorem spec_c8 :
    DecodeWAVToFloat64 (α := ℚ) wav24Truncated
      = .ok ([(((32768 : ℤ) : ℚ) / 8388608 + 0) / ((1 : ℕ) : ℚ)], 8000)
    ∧ (((32768 : ℤ) : ℚ) / 8388608 + 0) / ((1 : ℕ) : ℚ) = 1 / 256 := by
  constructor
  · rfl
  · norm_num

/-! ## Claim C2 -/

/-- C2: every hash produced by the canonical pipeline is obtained by median
aggregation of the raw per-frame magnitude spectra followed by exactly one
log compression and then hashing (never log before aggregation, never
twice); and the median aggregation of same-length spectra yields a feature
vector of length `min numBins spectrumLength`. -/
theorem spec_c2 :
    (∀ (b : List ℕ) (cfg : Option Config) (fileformat : String) (h : String),
      AudioPHashBytes b cfg fileformat = .ok h →
      ∃ (cfgF : Config) (samples : List ℝ) (gf : List ℝ),
        AggregateGlobalFeatureMedian
            ((Frame samples cfgF.frameSize cfgF.hop).map ComputeMagnitude) cfgF.numBins
          = some gf
        ∧ gf ≠ []
        ∧ h = AudioPHashFromFeature (LogScaleFeature gf))
    ∧ (∀ (mags : List (List ℚ)) (numBins : ℤ) (L : ℕ),
        mags ≠ [] → 0 < numBins → (∀ m ∈ mags, m.length = L) →
        ∃ gf, AggregateGlobalFeatureMedian mags numBins = some gf
          ∧ gf.length = min numBins.toNat L) := by
  constructor
  · intro b cfg fileformat h hok
    simp only [AudioPHashBytes] at hok
    split at hok
    · exact Except.noConfusion hok
    rename_i cfgF hval
    split at hok
    · exact Except.noConfusion hok
    split at hok
    · exact Except.noConfusion hok
    rename_i pr hdec
    split at hok
    · exact Except.noConfusion hok
    rename_i samples1 hres
    split at hok
    · exact Except.noConfusion hok
    split at hok
    · exact Except.noConfusion hok
    split at hok
    · exact Except.noConfusion hok
    rename_i gf hagg
    split at hok
    · exact Except.noConfusion hok
    rename_i hglen
    split at hok
    · exact Except.noConfusion hok
    injection hok with hh
    refine ⟨cfgF, Normalize samples1, gf, hagg, ?_, hh.symm⟩
    simpa [List.length_eq_zero] using hglen
  · intro mags numBins L hne hpos hlen
    have hguard : ¬ (mags.length = 0 ∨ numBins ≤ 0) := by
      push_neg
      exact ⟨by simpa [List.length_eq_zero] using hne, hpos⟩
    have hheadI : mags.headI.length = L := by
      cases mags with
      | nil => exact absurd rfl hne
      | cons m0 rest => exact hlen m0 (List.mem_cons_self m0 rest)
    have hnb : (if (mags.headI.length : ℤ) < numBins then (mags.headI.length : ℤ)
        else numBins).toNat = min numBins.toNat L := by
      rw [hheadI]
      rcases lt_or_le (L : ℤ) numBins with h | h
      · rw [if_pos h]; omega
      · rw [if_neg (not_lt.mpr h)]; omega
    unfold AggregateGlobalFeatureMedian
    rw [if_neg hguard]
    simp only []
    rw [hnb]
    exact mapO_bins_some mags Features.median (min numBins.toNat L)
      (fun m hm => by rw [hlen m hm]; omega)

/-! ### A concrete end-to-end pipeline run on four zero bytes -/

theorem insertionSort_replicate {α : Type} [LinearOrderedField α] (n : ℕ) (a : α) :
    List.insertionSort (· ≤ ·) (List.replicate n a) = List.replicate n a :=
  List.eq_of_perm_of_sorted
    (List.perm_insertionSort (· ≤ ·) (List.replicate n a))
    (List.sorted_insertionSort (· ≤ ·) (List.replicate n a))
    (List.pairwise_replicate.mpr (Or.inr (le_refl a)))

theorem snd_mem_of_mem_enumFrom {β : Type} :
    ∀ (l : List β) (n : ℕ) (p : ℕ × β), p ∈ l.enumFrom n → p.2 ∈ l := by
  intro l
  induction l with
  | nil => intro n p hp; cases hp
  | cons a t ih =>
    intro n p hp
    rcases List.mem_cons.mp hp with h | h
    · subst h
      exact List.mem_cons_self a t
    · exact List.mem_cons_of_mem a (ih (n + 1) p h)

theorem hashFold_no_bits {α : Type} [LinearOrderedField α] (med : α) :
    ∀ (l : List (ℕ × α)) (acc : ℕ), (∀ p ∈ l, ¬ med < p.2) →
      l.foldl (fun h p => if med < p.2 then h ||| 2 ^ (63 - p.1) else h) acc = acc := by
  intro l
  induction l with
  | nil => intro acc _; rfl
  | cons q t ih =>
    intro acc hall
    simp only [List.foldl_cons]
    rw [if_neg (hall q (List.mem_cons_self q t))]
    exact ih acc (fun p hp => hall p (List.mem_cons_of_mem q hp))

theorem paddedFeature_zero : paddedFeature ([0] : List ℝ) = List.replicate 64 0 := by
  unfold paddedFeature
  rw [show ([0] : List ℝ).take 64 = [0] from rfl,
    show (64 : ℕ) - ([0] : List ℝ).length = 63 from rfl]
  rfl

theorem hashMedian_zero : Hash.median (List.replicate 64 (0 : ℝ)) = 0 := by
  unfold Hash.median
  rw [insertionSort_replicate]
  simp

theorem audioPHashValue_zero : audioPHashValue ([0] : List ℝ) = 0 := by
  show (paddedFeature ([0] : List ℝ)).enum.foldl
      (fun (h : ℕ) (p : ℕ × ℝ) =>
        if Hash.median (paddedFeature ([0] : List ℝ)) < p.2 then h ||| 2 ^ (63 - p.1) else h)
      0 = 0
  simp only [paddedFeature_zero, hashMedian_zero]
  apply hashFold_no_bits
  intro p hp
  have h2 : p.2 ∈ List.replicate 64 (0 : ℝ) :=
    snd_mem_of_mem_enumFrom _ 0 p hp
  rw [List.eq_of_mem_replicate h2]
  exact lt_irrefl 0

theorem hash_of_zero_feature :
    AudioPHashFromFeature ([0] : List ℝ) = "0000000000000000" := by
  unfold AudioPHashFromFeature
  rw [if_neg (by norm_num), audioPHashValue_zero]
  rfl

theorem decode_zero_bytes :
    DecodePCM16LEToFloat64 (α := ℝ) [0, 0, 0, 0] = .ok ([0, 0], 0) := by
  unfold DecodePCM16LEToFloat64
  rw [if_neg (by norm_num), if_neg (by norm_num)]
  norm_num [List.range_succ, toInt16, u16le]

theorem normalize_zero_samples : Normalize ([0, 0] : List ℝ) = [0, 0] := by
  unfold Normalize
  rw [if_neg (by norm_num)]
  simp [ampStep]

theorem frame_zero_samples : Frame [0, 0] 2 1 = [[0, 0]] := by
  unfold Frame
  rw [if_neg (by norm_num)]
  norm_num [show ((2 : ℤ)).toNat = 2 from rfl, List.range_succ]

theorem computeMagnitude_zero_frame : ComputeMagnitude [0, 0] = [0] := by
  unfold ComputeMagnitude
  rw [if_neg (by norm_num)]
  norm_num [List.range_succ, Finset.sum_range_succ]

theorem median_singleton_zero : Features.median ([0] : List ℝ) = 0 := by
  unfold Features.median
  rfl

theorem aggregate_zero_mags :
    AggregateGlobalFeatureMedian ([[0]] : List (List ℝ)) 1 = some [0] := by
  unfold AggregateGlobalFeatureMedian
  rw [if_neg (by norm_num)]
  norm_num [mapO, List.headI, List.range_succ, Int.toNat_ofNat, median_singleton_zero]

theorem logScale_zero_feature : LogScaleFeature [0] = [0] := by
  unfold LogScaleFeature
  norm_num

theorem pipeline_zero_run :
    AudioPHashBytes [0, 0, 0, 0] (some ⟨44100, 2, 1, 1⟩) "pcm16le"
      = .ok "0000000000000000" := by
  simp only [AudioPHashBytes]
  rw [show ValidateAndFill ⟨44100, 2, 1, 1⟩ = .ok ⟨44100, 2, 1, 1⟩ from rfl]
  simp only [decode_zero_bytes]
  norm_num
  rw [normalize_zero_samples, frame_zero_samples]
  simp only [List.map_cons, List.map_nil, computeMagnitude_zero_frame]
  rw [aggregate_zero_mags]
  simp only [logScale_zero_feature, hash_of_zero_feature]
  simp

/-- C2 witness: the four-zero-byte pipeline run, plus a concrete
same-length aggregation. -/
theorem spec_c2_witness :
    (∃ (cfgF : Config) (samples : List ℝ) (gf : List ℝ),
      AggregateGlobalFeatureMedian
          ((Frame samples cfgF.frameSize cfgF.hop).map ComputeMagnitude) cfgF.numBins
        = some gf
      ∧ gf ≠ []
      ∧ "0000000000000000" = AudioPHashFromFeature (LogScaleFeature gf))
    ∧ (∃ gf, AggregateGlobalFeatureMedian [[(1 : ℚ), 2], [3, 4]] 2 = some gf
        ∧ gf.length = min (2 : ℤ).toNat 2) :=
  ⟨spec_c2.1 [0, 0, 0, 0] (some ⟨44100, 2, 1, 1⟩) "pcm16le" "0000000000000000"
      pipeline_zero_run,
   spec_c2.2 [[(1 : ℚ), 2], [3, 4]] 2 2 (by simp) (by norm_num)
     (by intro m hm; fin_cases hm <;> rfl)⟩
